import Mathlib

/-!
Verification of the beeziptoo run-length stages against their Rust sources.

Bytes are modelled as `Nat` values; the `u8` arithmetic of the source appears as
explicit `% 256` where the Rust code casts (`as u8`) or adds on `u8`.
Fallible code (`Result<_, Error>` with the single variant
`Error::RunLengthTruncated`) is modelled as `Option`, `none` standing for the
truncation error.  The `while` loops of the source are translated with an explicit
iteration bound (`fuel`); the bound `data.length` is shown sufficient because
every iteration consumes at least one element (`decode_go_fuel` below), so the
translation computes exactly what the loop computes.
-/

namespace Beeziptoo

namespace Rle1

/-- From rle.rs `encode_run`: a run of at most 3 bytes is emitted literally,
a longer run as its first 4 bytes followed by the length byte
`(data.len() - 4) as u8`. -/
def encode_run (data : List Nat) : List Nat :=
  if data.length ≤ 3 then data
  else data.take 4 ++ [(data.length - 4) % 256]

/-- From rle.rs `encode`: the loop body.  State is `(run_start, output)`;
index `i` plays the role of the enumerated loop variable.  The slice
`data[run_start..i]` is `(data.take i).drop run_start`; the `u8` cast of
`i - run_start` is `% 256`. -/
def encode_step (data : List Nat) (st : Nat × List Nat) (i : Nat) : Nat × List Nat :=
  if data.getD i 0 ≠ data.getD st.1 0 ∨ (i - st.1) % 256 = 255 then
    (i, st.2 ++ encode_run ((data.take i).drop st.1))
  else st

/-- From rle.rs `encode`: fold the loop body over all indices, then emit the
final run `data[run_start..]`. -/
def encode (data : List Nat) : List Nat :=
  if data.isEmpty then []
  else
    let st := (List.range data.length).foldl (encode_step data) (0, [])
    st.2 ++ encode_run (data.drop st.1)

/-- From rle.rs `get_run`: scan indices 1..=min(len-1,3) for the first byte
differing from data[0]; otherwise a length-4 remainder is the truncation
error (`none`), and anything else yields the 5-byte (or shorter) unit. -/
def get_run (data : List Nat) : Option (List Nat) :=
  let length := min (data.length - 1) 3
  match (List.range' 1 length).find?
      (fun i => decide (data.getD i 0 ≠ data.getD 0 0 ∧ i ≠ 4)) with
  | some i => some (data.take i)
  | none =>
    if data.length = 4 then none
    else some (data.take (min data.length 5))

/-- From rle.rs `decode_run`: up to 3 bytes are copied; a 5-byte unit expands
its first byte `data[data.len()-1] + 4` times (`u8` addition, hence `% 256`).
The debug assertion of the source on the unit length is established separately
(`get_run_shape`). -/
def decode_run (data : List Nat) : List Nat :=
  if data.length < 4 then data
  else List.replicate ((data.getLastD 0 + 4) % 256) (data.headD 0)

/-- From rle.rs `decode`: the while loop, with an explicit iteration bound.
Each iteration takes one run unit off the front and decodes it. -/
def decode_go : Nat → List Nat → Option (List Nat)
  | _, [] => some []
  | 0, _ :: _ => none
  | fuel + 1, b :: rest =>
    match get_run (b :: rest) with
    | none => none
    | some run =>
      match decode_go fuel ((b :: rest).drop run.length) with
      | none => none
      | some more => some (decode_run run ++ more)

/-- From rle.rs `decode`: `data.length` iterations always suffice because each
unit is nonempty. -/
def decode (data : List Nat) : Option (List Nat) :=
  decode_go data.length data

/-- Length of the maximal leading run of the byte `c`. -/
def runLength (c : Nat) : List Nat → Nat
  | [] => 0
  | b :: rest => if b = c then runLength c rest + 1 else 0

/-- The run decomposition the spec describes: each entry is a maximal run of
identical bytes, except that a run is flushed once it reaches 255 bytes of raw
length, so entries carry a length between 1 and 255. -/
def cappedRuns : List Nat → List (Nat × Nat)
  | [] => []
  | c :: rest =>
    (c, min (runLength c rest + 1) 255) ::
      cappedRuns (rest.drop (min (runLength c rest + 1) 255 - 1))
termination_by l => l.length
decreasing_by
  simp only [List.length_drop, List.length_cons]
  omega

/-- Encoding by runs: how the spec describes the encoder output. -/
def runsEncode (data : List Nat) : List Nat :=
  ((cappedRuns data).map fun r => encode_run (List.replicate r.2 r.1)).flatten

lemma runLength_le_length (c : Nat) (l : List Nat) : runLength c l ≤ l.length := by
  induction l with
  | nil => simp [runLength]
  | cons b rest ih =>
    simp only [runLength, List.length_cons]
    split <;> omega

lemma take_runLength (c : Nat) (l : List Nat) :
    l.take (runLength c l) = List.replicate (runLength c l) c := by
  induction l with
  | nil => simp [runLength]
  | cons b rest ih =>
    simp only [runLength]
    split
    · next h => simp [List.take_succ_cons, List.replicate_succ, h, ih]
    · simp

lemma getD_lt_runLength (c : Nat) (l : List Nat) (i : Nat)
    (h : i < runLength c l) : l.getD i 0 = c := by
  induction l generalizing i with
  | nil => simp [runLength] at h
  | cons b rest ih =>
    simp only [runLength] at h
    split at h
    · next hb =>
      cases i with
      | zero => simpa using hb
      | succ j =>
        have := ih j (by omega)
        simpa using this
    · omega

lemma getD_runLength_ne (c : Nat) (l : List Nat)
    (h : runLength c l < l.length) : l.getD (runLength c l) 0 ≠ c := by
  induction l with
  | nil => simp at h
  | cons b rest ih =>
    by_cases hb : b = c
    · simp only [runLength, if_pos hb] at h ⊢
      have := ih (by simpa using h)
      simpa using this
    · simp only [runLength, if_neg hb] at h ⊢
      simpa using hb

lemma take_min_runLength (c : Nat) (rest : List Nat) (m : Nat)
    (hm : m ≤ runLength c rest + 1) :
    (c :: rest).take m = List.replicate m c := by
  cases m with
  | zero => simp
  | succ j =>
    rw [List.take_succ_cons, List.replicate_succ]
    congr 1
    have hj : j ≤ runLength c rest := by omega
    calc rest.take j = (rest.take (runLength c rest)).take j := by
          rw [List.take_take]; congr 1; omega
      _ = (List.replicate (runLength c rest) c).take j := by rw [take_runLength]
      _ = List.replicate j c := by rw [List.take_replicate]; congr 1; omega

lemma encode_step_eq (data : List Nat) (rs : Nat) (out : List Nat) (i : Nat) :
    encode_step data (rs, out) i =
      if data.getD i 0 ≠ data.getD rs 0 ∨ (i - rs) % 256 = 255
      then (i, out ++ encode_run ((data.take i).drop rs)) else (rs, out) := rfl

lemma encode_foldl_out (data : List Nat) (idxs : List Nat) :
    ∀ rs out, List.foldl (encode_step data) (rs, out) idxs =
      ((List.foldl (encode_step data) (rs, []) idxs).1,
       out ++ (List.foldl (encode_step data) (rs, []) idxs).2) := by
  induction idxs with
  | nil => intro rs out; simp
  | cons i idxs ih =>
    intro rs out
    simp only [List.foldl_cons, encode_step_eq, List.nil_append]
    by_cases hc : data.getD i 0 ≠ data.getD rs 0 ∨ (i - rs) % 256 = 255
    · rw [if_pos hc, if_pos hc,
        ih i (out ++ encode_run ((data.take i).drop rs)),
        ih i (encode_run ((data.take i).drop rs))]
      simp
    · rw [if_neg hc, if_neg hc]
      exact ih rs out

lemma encode_foldl_shift (pre data' : List Nat) (idxs : List Nat) :
    ∀ rs out, List.foldl (encode_step (pre ++ data')) (rs + pre.length, out)
        (idxs.map (· + pre.length)) =
      ((List.foldl (encode_step data') (rs, out) idxs).1 + pre.length,
       (List.foldl (encode_step data') (rs, out) idxs).2) := by
  induction idxs with
  | nil => intro rs out; simp
  | cons i idxs ih =>
    intro rs out
    simp only [List.map_cons, List.foldl_cons, encode_step_eq]
    have h1 : (pre ++ data').getD (i + pre.length) 0 = data'.getD i 0 := by
      rw [List.getD_append_right pre data' 0 _ (by omega)]
      congr 1
      omega
    have h2 : (pre ++ data').getD (rs + pre.length) 0 = data'.getD rs 0 := by
      rw [List.getD_append_right pre data' 0 _ (by omega)]
      congr 1
      omega
    have h3 : i + pre.length - (rs + pre.length) = i - rs := by omega
    have h4 : ((pre ++ data').take (i + pre.length)).drop (rs + pre.length) =
        (data'.take i).drop rs := by
      rw [show i + pre.length = pre.length + i by omega, List.take_append,
        show rs + pre.length = pre.length + rs by omega, List.drop_append]
    rw [h1, h2, h3, h4]
    by_cases hc : data'.getD i 0 ≠ data'.getD rs 0 ∨ (i - rs) % 256 = 255
    · rw [if_pos hc, if_pos hc]
      exact ih i (out ++ encode_run ((data'.take i).drop rs))
    · rw [if_neg hc, if_neg hc]
      exact ih rs out

lemma encode_foldl_scan (c : Nat) (rest : List Nat) :
    ∀ j, j ≤ min (runLength c rest + 1) 255 →
      List.foldl (encode_step (c :: rest)) (0, []) (List.range j) = (0, []) := by
  intro j
  induction j with
  | zero => intro _; simp
  | succ k ih =>
    intro hj
    rw [List.range_succ, List.foldl_append, ih (by omega)]
    simp only [List.foldl_cons, List.foldl_nil, encode_step_eq]
    have hgk : (c :: rest).getD k 0 = c := by
      cases k with
      | zero => rfl
      | succ k' =>
        rw [List.getD_cons_succ]
        exact getD_lt_runLength c rest k' (by omega)
    have hcond : ¬((c :: rest).getD k 0 ≠ (c :: rest).getD 0 0 ∨ (k - 0) % 256 = 255) := by
      push_neg
      refine ⟨by rw [hgk, List.getD_cons_zero], ?_⟩
      have : k < 255 := by omega
      omega
    rw [if_neg hcond]

lemma encode_eq_runsEncode_aux :
    ∀ (n : Nat) (data : List Nat), data.length ≤ n → encode data = runsEncode data := by
  intro n
  induction n with
  | zero =>
    intro data h
    have : data = [] := List.length_eq_zero.mp (by omega)
    subst this
    simp [encode, runsEncode, cappedRuns]
  | succ n ih =>
    intro data h
    match data with
    | [] => simp [encode, runsEncode, cappedRuns]
    | c :: rest =>
      set rl := runLength c rest with hrl
      set m := min (rl + 1) 255 with hm
      have hm1 : 1 ≤ m := by omega
      have hmrl : m ≤ rl + 1 := by omega
      have hrlen : rl ≤ rest.length := runLength_le_length c rest
      have hlen : (c :: rest).length = rest.length + 1 := by simp
      have hruns : cappedRuns (c :: rest) =
          (c, m) :: cappedRuns (rest.drop (m - 1)) := by
        rw [cappedRuns]
      have htake : (c :: rest).take m = List.replicate m c :=
        take_min_runLength c rest m hmrl
      have hdropm : (c :: rest).drop m = rest.drop (m - 1) := by
        conv_lhs => rw [show m = (m - 1) + 1 by omega]
        rw [List.drop_succ_cons]
      by_cases hcase : m = rest.length + 1
      · -- the whole input is a single capped run
        have hscan := encode_foldl_scan c rest (rest.length + 1) (by omega)
        have hdata : (c :: rest) = List.replicate m c := by
          rw [← htake, hcase, ← hlen, List.take_length]
        rw [encode]
        simp only [List.isEmpty_cons, Bool.false_eq_true, if_false, hlen]
        rw [hscan]
        rw [runsEncode, hruns]
        have hdrop0 : rest.drop (m - 1) = [] := by
          have : rest.length ≤ m - 1 := by omega
          exact List.drop_eq_nil_of_le this
        simp only [hdrop0, List.map_cons]
        rw [cappedRuns]
        simp only [List.map_nil, List.flatten]
        rw [List.drop_zero, ← hdata]
        simp
      · -- the first capped run is proper: split the index range at m
        have hmlt : m < rest.length + 1 := by omega
        have hrange : List.range (rest.length + 1) =
            List.range m ++ List.range' m (rest.length + 1 - m) := by
          have happ := List.range'_append 0 m (rest.length + 1 - m) 1
          simp only [Nat.zero_add, Nat.one_mul] at happ
          conv_lhs => rw [List.range_eq_range',
            show rest.length + 1 = rest.length + 1 - m + m by omega]
          rw [← happ, ← List.range_eq_range']
        have hfires : (c :: rest).getD m 0 ≠ (c :: rest).getD 0 0 ∨ (m - 0) % 256 = 255 := by
          by_cases h255 : m = 255
          · right; omega
          · left
            have hmrl' : m = rl + 1 := by omega
            have : (c :: rest).getD m 0 = rest.getD rl 0 := by
              rw [hmrl', List.getD_cons_succ]
            rw [this, List.getD_cons_zero]
            exact getD_runLength_ne c rest (by omega)
        have hsplit : rest.length + 1 - m = (rest.length + 1 - m - 1) + 1 := by omega
        set k := rest.length + 1 - m - 1 with hk
        set data' := (c :: rest).drop m with hdata'
        have hlen' : data'.length = k + 1 := by
          rw [hdata', List.length_drop]
          simp only [List.length_cons]
          omega
        have hpredata : List.replicate m c ++ data' = c :: rest := by
          rw [← htake, hdata', List.take_append_drop]
        -- the fold over the first m indices is the identity, index m fires
        have hstep_m : List.foldl (encode_step (c :: rest)) (0, [])
            (List.range m ++ [m]) = (m, encode_run (List.replicate m c)) := by
          rw [List.foldl_append, encode_foldl_scan c rest m (by omega)]
          simp only [List.foldl_cons, List.foldl_nil, encode_step_eq]
          rw [if_pos hfires]
          rw [List.drop_zero, htake]
          simp
        -- shift the remaining indices into the suffix data'
        have hmap : List.range' (m + 1) k = (List.range' 1 k).map (· + m) := by
          rw [List.range'_eq_map_range, List.range'_eq_map_range, List.map_map]
          apply List.map_congr_left
          intro x _
          simp only [Function.comp_apply]
          omega
        have hshift := encode_foldl_shift (List.replicate m c) data' (List.range' 1 k)
          0 (encode_run (List.replicate m c))
        rw [hpredata] at hshift
        simp only [List.length_replicate, Nat.zero_add] at hshift
        -- the fold for data' itself starts with a non-firing index 0
        have hzero : encode_step data' (0, []) 0 = (0, []) := by
          rw [encode_step_eq, if_neg]
          push_neg
          exact ⟨rfl, by omega⟩
        have hrange' : List.range (k + 1) = 0 :: List.range' 1 k := by
          rw [List.range_eq_range']
          rw [show k + 1 = k + 1 from rfl, List.range'_succ]
        have hout := encode_foldl_out data' (List.range' 1 k) 0
          (encode_run (List.replicate m c))
        -- assemble both sides
        rw [encode]
        simp only [List.isEmpty_cons, Bool.false_eq_true, if_false, hlen]
        have hassoc : List.range m ++ (m :: List.range' (m + 1) k) =
            (List.range m ++ [m]) ++ List.range' (m + 1) k := by simp
        rw [hrange, hsplit, List.range'_succ, hassoc, List.foldl_append, hstep_m,
          hmap, hshift, hout]
        have hne' : data'.isEmpty = false := by
          cases hd : data' with
          | nil => rw [hd] at hlen'; simp at hlen'
          | cons a l => simp
        have ihd := ih data' (by omega)
        rw [encode, hne', hlen', hrange'] at ihd
        simp only [Bool.false_eq_true, if_false, List.foldl_cons, hzero] at ihd
        dsimp only
        rw [runsEncode, hruns, List.map_cons, List.flatten_cons, ← hdropm]
        dsimp only
        have hdropsum : (c :: rest).drop
            ((List.foldl (encode_step data') (0, []) (List.range' 1 k)).1 + m) =
            data'.drop (List.foldl (encode_step data') (0, []) (List.range' 1 k)).1 := by
          rw [hdata', List.drop_drop]
          congr 1
          omega
        rw [hdropsum, List.append_assoc, ihd, runsEncode]

lemma encode_eq_runsEncode (data : List Nat) : encode data = runsEncode data :=
  encode_eq_runsEncode_aux data.length data le_rfl

lemma getD_replicate (c : Nat) (n i : Nat) (h : i < n) :
    (List.replicate n c).getD i 0 = c := by
  induction n generalizing i with
  | zero => omega
  | succ k ih =>
    rw [List.replicate_succ]
    cases i with
    | zero => rfl
    | succ j => rw [List.getD_cons_succ]; exact ih j (by omega)

lemma find?_range'_eq_some (p : Nat → Bool) (k m : Nat) (hm1 : 1 ≤ m) (hmk : m ≤ k)
    (hlt : ∀ i, 1 ≤ i → i < m → p i = false) (hp : p m = true) :
    (List.range' 1 k).find? p = some m := by
  have happ := List.range'_append 1 (m - 1) (k - m + 1) 1
  simp only [Nat.one_mul] at happ
  have h1 : 1 + (m - 1) = m := by omega
  have h2 : k - m + 1 + (m - 1) = k := by omega
  rw [h1, h2] at happ
  rw [← happ, List.find?_append]
  have hnone : (List.range' 1 (m - 1)).find? p = none := by
    rw [List.find?_eq_none]
    intro x hx
    rw [List.mem_range'] at hx
    obtain ⟨i, hi, rfl⟩ := hx
    simp only [Nat.one_mul]
    rw [hlt (1 + i) (by omega) (by omega)]
    simp
  rw [hnone]
  have : k - m + 1 = (k - m) + 1 := by omega
  rw [this, List.range'_succ, List.find?_cons, hp]
  rfl

lemma get_run_some_shape (data : List Nat) (hne : data ≠ []) (run : List Nat)
    (h : get_run data = some run) :
    run = data.take run.length ∧ 1 ≤ run.length ∧ run.length ≤ data.length ∧
      (run.length = 1 ∨ run.length = 2 ∨ run.length = 3 ∨ run.length = 5) := by
  have hlen : 0 < data.length := List.length_pos.mpr hne
  simp only [get_run] at h
  split at h
  · next i hfind =>
    injection h with h'
    subst h'
    have him := List.mem_of_find?_eq_some hfind
    rw [List.mem_range'] at him
    obtain ⟨j, hj, hij⟩ := him
    have hlt : (data.take i).length = i := by
      rw [List.length_take]
      omega
    rw [hlt]
    exact ⟨rfl, by omega, by omega, by omega⟩
  · next hfind =>
    split at h
    · cases h
    · next h4 =>
      injection h with h'
      subst h'
      have hlt : (data.take (min data.length 5)).length = min data.length 5 := by
        rw [List.length_take]
        omega
      rw [hlt]
      exact ⟨rfl, by omega, by omega, by omega⟩

lemma get_run_none_iff (data : List Nat) (hne : data ≠ []) :
    get_run data = none ↔ data.length = 4 ∧ ∀ b ∈ data, b = data.headD 0 := by
  constructor
  · intro h
    simp only [get_run] at h
    split at h
    · next i hfind => cases h
    · next hfind =>
      split at h
      · next h4 =>
        refine ⟨h4, ?_⟩
        rw [List.find?_eq_none] at hfind
        have heq : ∀ i, 1 ≤ i → i ≤ 3 → data.getD i 0 = data.getD 0 0 := by
          intro i h1 h3
          have hmem := hfind i (by
            rw [List.mem_range']
            exact ⟨i - 1, by omega, by omega⟩)
          simp only [decide_eq_true_eq] at hmem
          push_neg at hmem
          by_contra hcon
          have := hmem hcon
          omega
        match data, h4 with
        | [a, b, c, d], _ =>
          have e1 := heq 1 (by omega) (by omega)
          have e2 := heq 2 (by omega) (by omega)
          have e3 := heq 3 (by omega) (by omega)
          simp only [List.getD_cons_succ, List.getD_cons_zero] at e1 e2 e3
          intro x hx
          simp only [List.mem_cons, List.not_mem_nil, or_false] at hx
          rcases hx with rfl | rfl | rfl | rfl <;> simp [e1, e2, e3]
      · cases h
  · rintro ⟨h4, hall⟩
    match data, h4 with
    | [a, b, c, d], _ =>
      have e1 : b = a := hall b (by simp)
      have e2 : c = a := hall c (by simp)
      have e3 : d = a := hall d (by simp)
      subst e1; subst e2; subst e3
      rw [get_run]
      norm_num [List.range', List.find?]

lemma decode_go_fuel : ∀ (f₁ f₂ : Nat) (data : List Nat),
    data.length ≤ f₁ → data.length ≤ f₂ → decode_go f₁ data = decode_go f₂ data := by
  intro f₁
  induction f₁ with
  | zero =>
    intro f₂ data h1 _
    have : data = [] := List.length_eq_zero.mp (by omega)
    subst this
    cases f₂ <;> rfl
  | succ g ih =>
    intro f₂ data h1 h2
    cases data with
    | nil => cases f₂ <;> rfl
    | cons b rest =>
      cases f₂ with
      | zero => simp at h2
      | succ g₂ =>
        simp only [decode_go]
        rcases hr : get_run (b :: rest) with _ | run
        · rfl
        · dsimp only
          obtain ⟨-, hpos, hle, -⟩ := get_run_some_shape (b :: rest) (by simp) run hr
          have hdl : ((b :: rest).drop run.length).length ≤ g := by
            rw [List.length_drop]
            simp only [List.length_cons] at h1 hle ⊢
            omega
          have hdl₂ : ((b :: rest).drop run.length).length ≤ g₂ := by
            rw [List.length_drop]
            simp only [List.length_cons] at h2 hle ⊢
            omega
          rw [ih g₂ _ hdl hdl₂]

lemma decode_fuel (f : Nat) (data : List Nat) (h : data.length ≤ f) :
    decode_go f data = decode data :=
  decode_go_fuel f data.length data h le_rfl

lemma decode_unit (data run : List Nat) (h : get_run data = some run) (hne : run ≠ []) :
    decode data =
      (decode (data.drop run.length)).map (fun more => decode_run run ++ more) := by
  cases data with
  | nil =>
    rw [get_run] at h
    simp only [List.length_nil] at h
    norm_num [List.range', List.find?] at h
    exact absurd h (by exact fun hh => hne hh)
  | cons b rest =>
    obtain ⟨-, hpos, hle, -⟩ := get_run_some_shape (b :: rest) (by simp) run h
    rw [decode]
    simp only [List.length_cons, decode_go, h]
    have hdl : ((b :: rest).drop run.length).length ≤ rest.length := by
      rw [List.length_drop]
      simp only [List.length_cons] at hle ⊢
      omega
    rw [decode_go_fuel rest.length ((b :: rest).drop run.length).length _ hdl le_rfl]
    rw [← decode]
    cases decode ((b :: rest).drop run.length) <;> rfl

lemma encode_run_small (c m : Nat) (h3 : m ≤ 3) :
    encode_run (List.replicate m c) = List.replicate m c := by
  rw [encode_run, if_pos (by rw [List.length_replicate]; omega)]

lemma encode_run_big (c m : Nat) (h4 : 4 ≤ m) (h255 : m ≤ 255) :
    encode_run (List.replicate m c) = List.replicate 4 c ++ [m - 4] := by
  rw [encode_run, if_neg (by rw [List.length_replicate]; omega)]
  congr 1
  · rw [List.take_replicate]
    congr 1
    omega
  · rw [List.length_replicate]
    congr 1
    omega

lemma decode_run_small (c m : Nat) (h3 : m ≤ 3) :
    decode_run (List.replicate m c) = List.replicate m c := by
  rw [decode_run, if_pos (by rw [List.length_replicate]; omega)]

lemma decode_run_marker (c k : Nat) :
    decode_run (List.replicate 4 c ++ [k]) = List.replicate ((k + 4) % 256) c := by
  rw [decode_run, if_neg (by simp)]
  have h1 : (List.replicate 4 c ++ [k]).getLastD 0 = k := List.getLastD_concat _ _ _
  have h2 : (List.replicate 4 c ++ [k]).headD 0 = c := by simp [List.replicate_succ]
  rw [h1, h2]

lemma get_run_replicate_small (c m : Nat) (h1 : 1 ≤ m) (h3 : m ≤ 3) :
    get_run (List.replicate m c) = some (List.replicate m c) := by
  have hfind : (List.range' 1 (min ((List.replicate m c).length - 1) 3)).find?
      (fun i => decide ((List.replicate m c).getD i 0 ≠
        (List.replicate m c).getD 0 0 ∧ i ≠ 4)) = none := by
    rw [List.find?_eq_none]
    intro x hx
    rw [List.mem_range'] at hx
    obtain ⟨j, hj, rfl⟩ := hx
    rw [List.length_replicate] at hj
    simp only [decide_eq_true_eq, not_and, ne_eq]
    intro ha
    exact absurd (by
      rw [getD_replicate c m _ (by omega), getD_replicate c m 0 (by omega)]) ha
  simp only [get_run, hfind]
  rw [if_neg (by rw [List.length_replicate]; omega)]
  rw [List.length_replicate, List.take_replicate]
  have heq : m ⊓ 5 ⊓ m = m := by omega
  rw [heq]

lemma get_run_lit (c d : Nat) (w : List Nat) (m : Nat) (h1 : 1 ≤ m) (h3 : m ≤ 3)
    (hd : d ≠ c) :
    get_run (List.replicate m c ++ d :: w) = some (List.replicate m c) := by
  have hlen : (List.replicate m c ++ d :: w).length = m + 1 + w.length := by
    simp
    omega
  have hgd0 : (List.replicate m c ++ d :: w).getD 0 0 = c := by
    rw [List.getD_append _ _ _ _ (by rw [List.length_replicate]; omega),
      getD_replicate c m 0 (by omega)]
  have hgdm : (List.replicate m c ++ d :: w).getD m 0 = d := by
    rw [List.getD_append_right _ _ _ _ (by rw [List.length_replicate])]
    simp
  have hfind : (List.range' 1 (min ((List.replicate m c ++ d :: w).length - 1) 3)).find?
      (fun i => decide ((List.replicate m c ++ d :: w).getD i 0 ≠
        (List.replicate m c ++ d :: w).getD 0 0 ∧ i ≠ 4)) = some m := by
    apply find?_range'_eq_some _ _ _ h1 (by omega)
    · intro i hi1 him
      apply decide_eq_false
      rintro ⟨ha, -⟩
      apply ha
      rw [hgd0, List.getD_append _ _ _ _ (by rw [List.length_replicate]; omega),
        getD_replicate c m _ (by omega)]
    · apply decide_eq_true
      refine ⟨?_, by omega⟩
      rw [hgdm, hgd0]
      exact hd
  simp only [get_run, hfind]
  congr 1
  rw [List.take_append_eq_append_take, List.take_replicate, List.length_replicate]
  simp

lemma get_run_marker (c k : Nat) (w : List Nat) :
    get_run (List.replicate 4 c ++ k :: w) = some (List.replicate 4 c ++ [k]) := by
  have hlen : (List.replicate 4 c ++ k :: w).length = 5 + w.length := by
    simp
    omega
  have hgd0 : (List.replicate 4 c ++ k :: w).getD 0 0 = c := by
    rw [List.getD_append _ _ _ _ (by rw [List.length_replicate]; omega),
      getD_replicate c 4 0 (by omega)]
  have hfind : (List.range' 1 (min ((List.replicate 4 c ++ k :: w).length - 1) 3)).find?
      (fun i => decide ((List.replicate 4 c ++ k :: w).getD i 0 ≠
        (List.replicate 4 c ++ k :: w).getD 0 0 ∧ i ≠ 4)) = none := by
    rw [List.find?_eq_none]
    intro x hx
    rw [List.mem_range'] at hx
    obtain ⟨j, hj, rfl⟩ := hx
    have hjle : j < min ((List.replicate 4 c ++ k :: w).length - 1) 3 := hj
    rw [hlen] at hjle
    simp only [decide_eq_true_eq, not_and, ne_eq]
    intro ha
    exact absurd (by
      rw [hgd0, List.getD_append _ _ _ _ (by rw [List.length_replicate]; omega),
        getD_replicate c 4 _ (by omega)]) ha
  simp only [get_run, hfind]
  rw [if_neg (by omega)]
  congr 1
  rw [show min (List.replicate 4 c ++ k :: w).length 5 = 5 by omega,
    List.take_append_eq_append_take, List.take_replicate, List.length_replicate]
  simp

lemma runsEncode_nil : runsEncode [] = [] := by
  rw [runsEncode, cappedRuns]
  rfl

lemma runsEncode_cons (d : Nat) (t : List Nat) :
    ∃ w, runsEncode (d :: t) = d :: w := by
  have hruns : cappedRuns (d :: t) = (d, min (runLength d t + 1) 255) ::
      cappedRuns (t.drop (min (runLength d t + 1) 255 - 1)) := by
    rw [cappedRuns]
  set m := min (runLength d t + 1) 255 with hm
  have hm1 : 1 ≤ m := by omega
  have hm255 : m ≤ 255 := by omega
  rw [runsEncode, hruns, List.map_cons, List.flatten_cons]
  set T := ((cappedRuns (t.drop (m - 1))).map
    fun r => encode_run (List.replicate r.2 r.1)).flatten with hT
  by_cases h3 : m ≤ 3
  · rw [encode_run_small d m h3]
    refine ⟨List.replicate (m - 1) d ++ T, ?_⟩
    conv_lhs => rw [show m = (m - 1) + 1 by omega, List.replicate_succ]
    rw [List.cons_append]
  · rw [encode_run_big d m (by omega) hm255]
    refine ⟨(List.replicate 3 d ++ [m - 4]) ++ T, ?_⟩
    rw [show (4 : Nat) = 3 + 1 from rfl, List.replicate_succ, List.cons_append,
      List.cons_append]

lemma decode_runsEncode_aux : ∀ (n : Nat) (x : List Nat), x.length ≤ n →
    decode (runsEncode x) = some x := by
  intro n
  induction n with
  | zero =>
    intro x h
    have : x = [] := List.length_eq_zero.mp (by omega)
    subst this
    rw [runsEncode_nil]
    rfl
  | succ n ih =>
    intro x h
    match x with
    | [] => rw [runsEncode_nil]; rfl
    | c :: rest =>
      set rl := runLength c rest with hrl
      set m := min (rl + 1) 255 with hm
      have hm1 : 1 ≤ m := by omega
      have hmrl : m ≤ rl + 1 := by omega
      have hm255 : m ≤ 255 := by omega
      have hrlen : rl ≤ rest.length := runLength_le_length c rest
      have hruns : cappedRuns (c :: rest) =
          (c, m) :: cappedRuns (rest.drop (m - 1)) := by
        rw [cappedRuns]
      have hdropm : (c :: rest).drop m = rest.drop (m - 1) := by
        conv_lhs => rw [show m = (m - 1) + 1 by omega]
        rw [List.drop_succ_cons]
      set x' := rest.drop (m - 1) with hx'
      have hxlen : x'.length = rest.length + 1 - m := by
        rw [hx', List.length_drop]
        omega
      have hxdec : c :: rest = List.replicate m c ++ x' := by
        rw [← hdropm]
        conv_lhs => rw [← List.take_append_drop m (c :: rest)]
        rw [take_min_runLength c rest m hmrl]
      have hxih : decode (runsEncode x') = some x' := ih x' (by
        simp only [List.length_cons] at h
        omega)
      have henc : runsEncode (c :: rest) =
          encode_run (List.replicate m c) ++ runsEncode x' := by
        rw [runsEncode, hruns, List.map_cons, List.flatten_cons]
        rfl
      by_cases h3 : m ≤ 3
      · -- a short run is emitted literally
        have hmeq : m = rl + 1 := by omega
        rw [henc, encode_run_small c m h3]
        cases hx'c : x' with
        | nil =>
          rw [runsEncode_nil, List.append_nil]
          have hg := get_run_replicate_small c m hm1 h3
          rw [decode_unit (List.replicate m c) (List.replicate m c) hg
            (by simp; omega)]
          rw [List.length_replicate, List.drop_replicate]
          simp only [Nat.sub_self, List.replicate_zero]
          rw [show decode [] = some [] from rfl]
          simp only [Option.map_some', List.append_nil, decode_run_small c m h3]
          rw [hxdec, hx'c, List.append_nil]
        | cons d t' =>
          have hdlt : rl < rest.length := by
            have : x'.length ≥ 1 := by rw [hx'c]; simp
            omega
          have hd : d ≠ c := by
            have hg : rest.getD rl 0 ≠ c := getD_runLength_ne c rest hdlt
            have : x'.getD 0 0 = rest.getD rl 0 := by
              rw [hx', List.getD_eq_getElem?_getD, List.getD_eq_getElem?_getD,
                List.getElem?_drop]
              congr 2
              omega
            rw [hx'c] at this
            simp only [List.getD_cons_zero] at this
            rw [this]
            exact hg
          obtain ⟨w, hw⟩ := runsEncode_cons d t'
          rw [hw]
          have hg := get_run_lit c d w m hm1 h3 hd
          rw [decode_unit _ (List.replicate m c) hg (by simp; omega)]
          rw [List.length_replicate]
          have hdrop : (List.replicate m c ++ d :: w).drop m = d :: w := by
            have hchk := List.drop_left (List.replicate m c) (d :: w)
            rwa [List.length_replicate] at hchk
          rw [hdrop, ← hw, ← hx'c, hxih, decode_run_small c m h3]
          simp only [Option.map_some']
          rw [hxdec]
      · -- a long run is emitted as a 5-byte unit
        have h4 : 4 ≤ m := by omega
        rw [henc, encode_run_big c m h4 hm255]
        have hcons : (List.replicate 4 c ++ [m - 4]) ++ runsEncode x' =
            List.replicate 4 c ++ (m - 4) :: runsEncode x' := by
          rw [List.append_assoc, List.singleton_append]
        rw [hcons]
        have hg := get_run_marker c (m - 4) (runsEncode x')
        rw [decode_unit _ (List.replicate 4 c ++ [m - 4]) hg
          (by apply List.ne_nil_of_length_pos; simp)]
        have hl5 : (List.replicate 4 c ++ [m - 4]).length = 5 := by simp
        rw [hl5]
        have hdrop : (List.replicate 4 c ++ (m - 4) :: runsEncode x').drop 5 =
            runsEncode x' := by
          rw [show (5 : Nat) = (List.replicate 4 c).length + 1 by simp,
            List.drop_append, List.drop_succ_cons, List.drop_zero]
        rw [hdrop, hxih, decode_run_marker]
        simp only [Option.map_some']
        have hrep : (m - 4 + 4) % 256 = m := by omega
        rw [hrep, hxdec]

/-- The decoder inverts the runs-based description of the encoder. -/
lemma decode_runsEncode (x : List Nat) : decode (runsEncode x) = some x :=
  decode_runsEncode_aux x.length x le_rfl

/-- Reachability of a suffix during the decode loop: `Reach d s` holds when
the loop, started on `d`, at some iteration has exactly `s` left to parse. -/
inductive Reach : List Nat → List Nat → Prop where
  | refl (d : List Nat) : Reach d d
  | step (d s run : List Nat) (h : get_run d = some run)
      (hs : Reach (d.drop run.length) s) : Reach d s

lemma decode_none_reach_aux : ∀ (n : Nat) (data : List Nat), data.length ≤ n →
    decode data = none →
    ∃ s, Reach data s ∧ s.length = 4 ∧ ∀ b ∈ s, b = s.headD 0 := by
  intro n
  induction n with
  | zero =>
    intro data h hd
    have : data = [] := List.length_eq_zero.mp (by omega)
    subst this
    rw [show decode [] = some [] from rfl] at hd
    cases hd
  | succ n ih =>
    intro data h hd
    cases data with
    | nil =>
      rw [show decode [] = some [] from rfl] at hd
      cases hd
    | cons b rest =>
      rw [decode] at hd
      simp only [List.length_cons, decode_go] at hd
      rcases hr : get_run (b :: rest) with _ | run
      · have h4 := (get_run_none_iff (b :: rest) (by simp)).mp hr
        exact ⟨b :: rest, Reach.refl _, h4.1, h4.2⟩
      · rw [hr] at hd
        dsimp only at hd
        obtain ⟨-, hpos, hle, -⟩ := get_run_some_shape (b :: rest) (by simp) run hr
        have hfuel : decode_go rest.length ((b :: rest).drop run.length) =
            decode ((b :: rest).drop run.length) := decode_fuel _ _ (by
          rw [List.length_drop]
          simp only [List.length_cons] at hle ⊢
          omega)
        rw [hfuel] at hd
        rcases hdec : decode ((b :: rest).drop run.length) with _ | more
        · obtain ⟨s, hs, h41, h42⟩ := ih _ (by
            rw [List.length_drop]
            simp only [List.length_cons] at h hle ⊢
            omega) hdec
          exact ⟨s, Reach.step _ _ _ hr hs, h41, h42⟩
        · rw [hdec] at hd
          simp at hd

lemma reach_decode_none (data s : List Nat) (hreach : Reach data s) :
    s.length = 4 → (∀ b ∈ s, b = s.headD 0) → decode data = none := by
  induction hreach with
  | refl d =>
    intro h4 hall
    have hne : d ≠ [] := by
      intro hc
      rw [hc] at h4
      simp at h4
    have hg := (get_run_none_iff d hne).mpr ⟨h4, hall⟩
    cases d with
    | nil => exact absurd rfl hne
    | cons b rest =>
      rw [decode]
      simp only [List.length_cons, decode_go, hg]
  | step d s run hr hs ih =>
    intro h4 hall
    have hnone := ih h4 hall
    have hdne : d ≠ [] := by
      intro hc
      subst hc
      rw [show List.drop run.length ([] : List Nat) = [] from by simp] at hnone
      rw [show decode [] = some [] from rfl] at hnone
      cases hnone
    obtain ⟨-, hpos, hle, -⟩ := get_run_some_shape d hdne run hr
    cases d with
    | nil => exact absurd rfl hdne
    | cons b rest =>
      rw [decode]
      simp only [List.length_cons, decode_go, hr]
      have hfuel : decode_go rest.length ((b :: rest).drop run.length) =
          decode ((b :: rest).drop run.length) := decode_fuel _ _ (by
        rw [List.length_drop]
        simp only [List.length_cons] at hle ⊢
        omega)
      rw [hfuel, hnone]

/-- Failure characterization of the rle1 decoder: it fails exactly when the
parse reaches a point where the remaining input is a run of exactly 4
identical bytes (so the length byte is missing). -/
lemma decode_none_iff (data : List Nat) :
    decode data = none ↔
      ∃ s, Reach data s ∧ s.length = 4 ∧ ∀ b ∈ s, b = s.headD 0 := by
  constructor
  · exact decode_none_reach_aux data.length data le_rfl
  · rintro ⟨s, hreach, h4, hall⟩
    exact reach_decode_none data s hreach h4 hall

lemma runLength_replicate (c k : Nat) :
    runLength c (List.replicate k c) = k := by
  induction k with
  | zero => simp [runLength]
  | succ j ih => rw [List.replicate_succ, runLength, if_pos rfl, ih]

lemma cappedRuns_replicate_le (c n : Nat) (h1 : 1 ≤ n) (h255 : n ≤ 255) :
    cappedRuns (List.replicate n c) = [(c, n)] := by
  conv_lhs => rw [show n = (n - 1) + 1 by omega, List.replicate_succ]
  rw [cappedRuns, runLength_replicate]
  have hmin : min (n - 1 + 1) 255 = n := by omega
  rw [hmin]
  have hdrop : (List.replicate (n - 1) c).drop (n - 1) = [] := by
    rw [List.drop_replicate]
    simp
  rw [hdrop, cappedRuns]

lemma cappedRuns_replicate_big (c n : Nat) (h256 : 256 ≤ n) (h510 : n ≤ 510) :
    cappedRuns (List.replicate n c) = [(c, 255), (c, n - 255)] := by
  conv_lhs => rw [show n = (n - 1) + 1 by omega, List.replicate_succ]
  rw [cappedRuns, runLength_replicate]
  have hmin : min (n - 1 + 1) 255 = 255 := by omega
  rw [hmin]
  have hdrop : (List.replicate (n - 1) c).drop (255 - 1) =
      List.replicate (n - 255) c := by
    rw [List.drop_replicate, show n - 1 - (255 - 1) = n - 255 by omega]
  rw [hdrop, cappedRuns_replicate_le c (n - 255) (by omega) (by omega)]

lemma runsEncode_single (c n : Nat) (h1 : 1 ≤ n) (h255 : n ≤ 255) :
    runsEncode (List.replicate n c) = encode_run (List.replicate n c) := by
  rw [runsEncode, cappedRuns_replicate_le c n h1 h255, List.map_cons, List.map_nil,
    List.flatten_cons, List.flatten_nil, List.append_nil]

lemma runsEncode_double (c n : Nat) (h256 : 256 ≤ n) (h510 : n ≤ 510) :
    runsEncode (List.replicate n c) =
      encode_run (List.replicate 255 c) ++ encode_run (List.replicate (n - 255) c) := by
  rw [runsEncode, cappedRuns_replicate_big c n h256 h510, List.map_cons, List.map_cons,
    List.map_nil, List.flatten_cons, List.flatten_cons, List.flatten_nil, List.append_nil]

lemma cappedRuns_bounds_aux : ∀ (n : Nat) (data : List Nat), data.length ≤ n →
    ∀ r ∈ cappedRuns data, 1 ≤ r.2 ∧ r.2 ≤ 255 := by
  intro n
  induction n with
  | zero =>
    intro data h r hr
    have : data = [] := List.length_eq_zero.mp (by omega)
    subst this
    rw [cappedRuns] at hr
    cases hr
  | succ n ih =>
    intro data h r hr
    cases data with
    | nil =>
      rw [cappedRuns] at hr
      cases hr
    | cons c rest =>
      rw [cappedRuns] at hr
      rcases List.mem_cons.mp hr with rfl | htail
      · constructor <;> (dsimp only; omega)
      · exact ih (rest.drop (min (runLength c rest + 1) 255 - 1)) (by
          rw [List.length_drop]
          simp only [List.length_cons] at h
          omega) r htail

end Rle1

namespace Rle2

/-- From rle2.rs: the output alphabet.  `RunA`/`RunB` are the two run digits,
`Byte v` a literal byte. -/
inductive Symbol where
  | RunA : Symbol
  | RunB : Symbol
  | Byte : Nat → Symbol
deriving DecidableEq, Repr

/-- From rle2.rs `encode_run`: the bit-emission loop, one iteration per
symbol, emitting the least significant bit of `repr` first (`1 & repr`,
then `repr >>= 1`). -/
def encodeBits : Nat → Nat → List Symbol
  | 0, _ => []
  | k + 1, repr =>
    (if 1 &&& repr = 0 then Symbol.RunA else Symbol.RunB) :: encodeBits k (repr >>> 1)

/-- From rle2.rs `encode_run`: `repr = length + 1`, `num_symbols = ilog2 repr`,
and the loop runs on `(1 << num_symbols) ^ repr`.  (The source asserts
`length != 0`; `encode_run` is only applied to nonempty zero runs.) -/
def encode_run (length : Nat) : List Symbol :=
  encodeBits (Nat.log2 (length + 1)) ((1 <<< Nat.log2 (length + 1)) ^^^ (length + 1))

/-- From rle2.rs `decode_run`: fold over the reversed run, shifting a bit in
per symbol; then `zero_count = ((1 << run.len()) | repr) - 1` zero bytes.
The `Byte` arm of the match in the source is unreachable (the callers never
pass a `Byte`); it is modelled as the identity step. -/
def decode_run (run : List Symbol) : List Nat :=
  List.replicate
    ((1 <<< run.length |||
        run.reverse.foldl (fun r s =>
          match s with
          | Symbol.RunA => r <<< 1
          | Symbol.RunB => (r <<< 1) ||| 1
          | Symbol.Byte _ => r) 0) - 1) 0

/-- From rle2.rs `get_symbols`: a nonzero head is one literal symbol; a zero
head starts a zero run that extends to the first nonzero byte (or the end of
the input).  (The source asserts its input is nonempty.) -/
def get_symbols (input : List Nat) : List Symbol × List Nat :=
  match input with
  | b :: rest =>
    if b ≠ 0 then ([Symbol.Byte b], rest)
    else
      match input.findIdx? (fun byte => byte ≠ 0) with
      | some length => (encode_run length, input.drop length)
      | none => (encode_run input.length, [])
  | [] => ([], [])

/-- From rle2.rs `get_bytes`: a leading `Byte` is one literal byte; otherwise
the run of `RunA`/`RunB` symbols extends to the first `Byte` (or the end) and
is decoded as a zero run.  (The source asserts its input is nonempty.) -/
def get_bytes (input : List Symbol) : List Nat × List Symbol :=
  match input with
  | Symbol.Byte b :: rest => ([b], rest)
  | _ :: _ =>
    match input.findIdx? (fun s => match s with | Symbol.Byte _ => true | _ => false) with
    | some length => (decode_run (input.take length), input.drop length)
    | none => (decode_run input, [])
  | [] => ([], [])

/-- From rle2.rs `encode`: the while loop, with an explicit iteration bound.
Each iteration consumes at least one byte, so `data.length` iterations
suffice (`encode_go_fuel`). -/
def encode_go : Nat → List Nat → List Symbol
  | 0, _ => []
  | fuel + 1, data =>
    if data.isEmpty then []
    else
      let p := get_symbols data
      p.1 ++ encode_go fuel p.2

def encode (data : List Nat) : List Symbol := encode_go data.length data

/-- From rle2.rs `decode`: the while loop, with an explicit iteration bound. -/
def decode_go : Nat → List Symbol → List Nat
  | 0, _ => []
  | fuel + 1, data =>
    if data.isEmpty then []
    else
      let p := get_bytes data
      p.1 ++ decode_go fuel p.2

def decode (data : List Symbol) : List Nat := decode_go data.length data

lemma lor_two_pow_eq_add (k s : Nat) (h : s < 2 ^ k) : 2 ^ k ||| s = 2 ^ k + s := by
  apply Nat.eq_of_testBit_eq
  intro i
  rcases Nat.lt_trichotomy i k with hik | rfl | hik
  · rw [Nat.testBit_lor, Nat.testBit_two_pow_of_ne (by omega),
      Nat.testBit_two_pow_add_gt hik]
    simp
  · rw [Nat.testBit_lor, Nat.testBit_two_pow_self, Nat.testBit_two_pow_add_eq,
      Nat.testBit_lt_two_pow h]
    simp
  · have hpow : 2 ^ (k + 1) ≤ 2 ^ i := Nat.pow_le_pow_right (by norm_num) (by omega)
    have hsum : 2 ^ k + s < 2 ^ i := by
      have : 2 ^ (k + 1) = 2 ^ k + 2 ^ k := by ring
      omega
    have hsi : s < 2 ^ i := by omega
    rw [Nat.testBit_lor, Nat.testBit_lt_two_pow hsum,
      Nat.testBit_two_pow_of_ne (by omega), Nat.testBit_lt_two_pow hsi]
    simp

lemma xor_two_pow_add (k s : Nat) (h : s < 2 ^ k) : 2 ^ k ^^^ (2 ^ k + s) = s := by
  apply Nat.eq_of_testBit_eq
  intro i
  rw [Nat.testBit_xor]
  by_cases hik : i = k
  · subst hik
    rw [Nat.testBit_two_pow_self, Nat.testBit_two_pow_add_eq,
      Nat.testBit_lt_two_pow h]
    simp
  · rw [Nat.testBit_two_pow_of_ne (by omega)]
    rcases Nat.lt_or_ge i k with hlt | hge
    · rw [Nat.testBit_two_pow_add_gt hlt s]
      simp
    · have hki : k < i := by omega
      have hpow : 2 ^ (k + 1) ≤ 2 ^ i := Nat.pow_le_pow_right (by norm_num) (by omega)
      have hsum : 2 ^ k + s < 2 ^ i := by
        have : 2 ^ (k + 1) = 2 ^ k + 2 ^ k := by ring
        omega
      have hsi : s < 2 ^ i := by omega
      rw [Nat.testBit_lt_two_pow hsum, Nat.testBit_lt_two_pow hsi]
      simp

lemma two_mul_lor_one (a : Nat) : 2 * a ||| 1 = 2 * a + 1 := by
  apply Nat.eq_of_testBit_eq
  intro i
  rw [Nat.testBit_lor]
  cases i with
  | zero =>
    rw [Nat.testBit_zero, Nat.testBit_zero, Nat.testBit_zero]
    simp
    omega
  | succ j =>
    rw [Nat.testBit_add_one, Nat.testBit_add_one, Nat.testBit_add_one]
    have h1 : (1 : Nat) / 2 = 0 := by norm_num
    have h2 : (2 * a) / 2 = a := by omega
    have h3 : (2 * a + 1) / 2 = a := by omega
    rw [h1, h2, h3]
    simp

lemma encodeBits_length (k : Nat) : ∀ r, (encodeBits k r).length = k := by
  induction k with
  | zero => intro r; rfl
  | succ j ih =>
    intro r
    rw [encodeBits, List.length_cons, ih]

lemma encodeBits_not_byte (k : Nat) : ∀ r s, s ∈ encodeBits k r →
    s = Symbol.RunA ∨ s = Symbol.RunB := by
  induction k with
  | zero => intro r s hs; cases hs
  | succ j ih =>
    intro r s hs
    rw [encodeBits] at hs
    rcases List.mem_cons.mp hs with rfl | htail
    · split <;> simp
    · exact ih _ s htail

lemma foldl_encodeBits (k : Nat) : ∀ r, r < 2 ^ k →
    (encodeBits k r).reverse.foldl (fun r s =>
      match s with
      | Symbol.RunA => r <<< 1
      | Symbol.RunB => (r <<< 1) ||| 1
      | Symbol.Byte _ => r) 0 = r := by
  induction k with
  | zero =>
    intro r h
    have : r = 0 := by omega
    subst this
    rfl
  | succ j ih =>
    intro r h
    rw [encodeBits, List.reverse_cons, List.foldl_append]
    have hdiv : r >>> 1 < 2 ^ j := by
      rw [Nat.shiftRight_one]
      have : 2 ^ (j + 1) = 2 ^ j * 2 := by ring
      omega
    rw [ih (r >>> 1) hdiv]
    simp only [List.foldl_cons, List.foldl_nil]
    rw [Nat.one_and_eq_mod_two]
    by_cases hpar : r % 2 = 0
    · rw [if_pos hpar]
      show (r >>> 1) <<< 1 = r
      rw [Nat.shiftRight_one, Nat.shiftLeft_eq]
      omega
    · rw [if_neg hpar]
      show ((r >>> 1) <<< 1) ||| 1 = r
      rw [Nat.shiftRight_one, Nat.shiftLeft_eq, pow_one, Nat.mul_comm,
        two_mul_lor_one]
      omega

/-- The bijective base-2 numeral law: for every nonempty zero run the decode
fold inverts the encode loop, and the length recovered is exactly `L`. -/
lemma decode_run_encode_run (L : Nat) (h : 1 ≤ L) :
    decode_run (encode_run L) = List.replicate L 0 := by
  have hk2 : 2 ≤ L + 1 := by omega
  set k := Nat.log2 (L + 1) with hk
  have hklow : 2 ^ k ≤ L + 1 := by
    rw [hk, Nat.log2_eq_log_two]
    exact Nat.pow_log_le_self 2 (by omega)
  have hkhigh : L + 1 < 2 ^ (k + 1) := by
    rw [hk, Nat.log2_eq_log_two]
    exact Nat.lt_pow_succ_log_self (by norm_num) (L + 1)
  have hpow : 2 ^ (k + 1) = 2 ^ k + 2 ^ k := by ring
  have hs : L + 1 - 2 ^ k < 2 ^ k := by omega
  have hxor : (1 <<< k) ^^^ (L + 1) = L + 1 - 2 ^ k := by
    rw [Nat.shiftLeft_eq, one_mul]
    conv_lhs => rw [show L + 1 = 2 ^ k + (L + 1 - 2 ^ k) by omega]
    exact xor_two_pow_add k (L + 1 - 2 ^ k) hs
  rw [encode_run, ← hk, hxor, decode_run, encodeBits_length,
    foldl_encodeBits k (L + 1 - 2 ^ k) hs, Nat.shiftLeft_eq, one_mul,
    lor_two_pow_eq_add k (L + 1 - 2 ^ k) hs]
  congr 1
  omega

lemma encode_run_length (z : Nat) : (encode_run z).length = Nat.log2 (z + 1) :=
  encodeBits_length _ _

lemma log2_2 : Nat.log2 2 = 1 := by simp [Nat.log2]

lemma log2_16 : Nat.log2 16 = 4 := by simp [Nat.log2]

lemma log2_17 : Nat.log2 17 = 4 := by simp [Nat.log2]

lemma encode_run_ne_nil (z : Nat) (hz : 1 ≤ z) : encode_run z ≠ [] := by
  intro hc
  have := encode_run_length z
  rw [hc] at this
  simp only [List.length_nil] at this
  have hpos : 0 < Nat.log2 (z + 1) := by
    rw [Nat.log2_eq_log_two]
    exact Nat.log_pos (by norm_num) (by omega)
  omega

lemma encode_run_not_byte (z : Nat) : ∀ s ∈ encode_run z,
    (match s with | Symbol.Byte _ => true | _ => false) = false := by
  intro s hs
  rcases encodeBits_not_byte _ _ s hs with rfl | rfl <;> rfl

lemma findIdx?_zeros : ∀ (z d : Nat) (t : List Nat), d ≠ 0 →
    (List.replicate z 0 ++ d :: t).findIdx? (fun byte => decide (byte ≠ 0)) = some z := by
  intro z
  induction z with
  | zero =>
    intro d t hd
    simp [List.findIdx?_cons, hd]
  | succ j ih =>
    intro d t hd
    rw [List.replicate_succ, List.cons_append, List.findIdx?_cons,
      if_neg (by simp), List.findIdx?_start_succ, ih d t hd]
    rfl

lemma findIdx?_zeros_none (l : List Nat) (h : ∀ b ∈ l, b = 0) :
    l.findIdx? (fun byte => decide (byte ≠ 0)) = none := by
  rw [List.findIdx?_eq_none_iff]
  intro x hx
  simp [h x hx]

lemma findIdx?_nonbytes : ∀ (ns : List Symbol), (∀ s ∈ ns,
      (match s with | Symbol.Byte _ => true | _ => false) = false) →
    ∀ (b : Nat) (t : List Symbol),
    (ns ++ Symbol.Byte b :: t).findIdx?
      (fun s => match s with | Symbol.Byte _ => true | _ => false) = some ns.length := by
  intro ns
  induction ns with
  | nil =>
    intro _ b t
    simp [List.findIdx?_cons]
  | cons s ns' ih =>
    intro hnb b t
    rw [List.cons_append, List.findIdx?_cons, if_neg (by
      rw [hnb s (by simp)]
      simp), List.findIdx?_start_succ, ih (fun x hx => hnb x (by simp [hx])) b t]
    rfl

lemma findIdx?_nonbytes_none (ns : List Symbol) (h : ∀ s ∈ ns,
      (match s with | Symbol.Byte _ => true | _ => false) = false) :
    ns.findIdx? (fun s => match s with | Symbol.Byte _ => true | _ => false) = none := by
  rw [List.findIdx?_eq_none_iff]
  exact h

lemma get_symbols_consume (b : Nat) (rest : List Nat) :
    (get_symbols (b :: rest)).2.length ≤ rest.length := by
  rw [get_symbols]
  by_cases hb : b ≠ 0
  · rw [if_pos hb]
  · rw [if_neg hb]
    rcases hfind : (b :: rest).findIdx? (fun byte => decide (byte ≠ 0)) with _ | len
    · simp
    · dsimp only
      obtain ⟨hlt, hp, hprev⟩ := List.findIdx?_eq_some_iff_getElem.mp hfind
      have hlen1 : 1 ≤ len := by
        by_contra hc
        have h0 : len = 0 := by omega
        subst h0
        simp only [List.getElem_cons_zero] at hp
        simp only [not_not] at hb
        subst hb
        simp at hp
      rw [List.length_drop]
      simp only [List.length_cons]
      omega

lemma get_bytes_consume (s : Symbol) (rest : List Symbol) :
    (get_bytes (s :: rest)).2.length ≤ rest.length := by
  cases s with
  | Byte b => rw [get_bytes]
  | RunA =>
    simp only [get_bytes, List.findIdx?_cons]
    rcases hfind : rest.findIdx?
        (fun s => match s with | Symbol.Byte _ => true | _ => false) with _ | len
    · simp [List.findIdx?_start_succ, hfind]
    · simp only [List.findIdx?_start_succ, hfind, Option.map_some',
        Bool.false_eq_true, if_false]
      rw [List.length_drop]
      simp only [List.length_cons]
      omega
  | RunB =>
    simp only [get_bytes, List.findIdx?_cons]
    rcases hfind : rest.findIdx?
        (fun s => match s with | Symbol.Byte _ => true | _ => false) with _ | len
    · simp [List.findIdx?_start_succ, hfind]
    · simp only [List.findIdx?_start_succ, hfind, Option.map_some',
        Bool.false_eq_true, if_false]
      rw [List.length_drop]
      simp only [List.length_cons]
      omega

lemma encode_go_fuel : ∀ (f₁ f₂ : Nat) (data : List Nat),
    data.length ≤ f₁ → data.length ≤ f₂ → encode_go f₁ data = encode_go f₂ data := by
  intro f₁
  induction f₁ with
  | zero =>
    intro f₂ data h1 _
    have : data = [] := List.length_eq_zero.mp (by omega)
    subst this
    cases f₂ <;> rfl
  | succ g ih =>
    intro f₂ data h1 h2
    cases data with
    | nil => cases f₂ <;> rfl
    | cons b rest =>
      cases f₂ with
      | zero => simp at h2
      | succ g₂ =>
        rw [encode_go, encode_go, if_neg (by simp), if_neg (by simp)]
        dsimp only
        have hcons := get_symbols_consume b rest
        simp only [List.length_cons] at h1 h2
        rw [ih g₂ (get_symbols (b :: rest)).2 (by omega) (by omega)]

lemma decode_go_fuel_syms : ∀ (f₁ f₂ : Nat) (data : List Symbol),
    data.length ≤ f₁ → data.length ≤ f₂ → decode_go f₁ data = decode_go f₂ data := by
  intro f₁
  induction f₁ with
  | zero =>
    intro f₂ data h1 _
    have : data = [] := List.length_eq_zero.mp (by omega)
    subst this
    cases f₂ <;> rfl
  | succ g ih =>
    intro f₂ data h1 h2
    cases data with
    | nil => cases f₂ <;> rfl
    | cons s rest =>
      cases f₂ with
      | zero => simp at h2
      | succ g₂ =>
        rw [decode_go, decode_go, if_neg (by simp), if_neg (by simp)]
        dsimp only
        have hcons := get_bytes_consume s rest
        simp only [List.length_cons] at h1 h2
        rw [ih g₂ (get_bytes (s :: rest)).2 (by omega) (by omega)]

lemma rle2_encode_fuel (f : Nat) (data : List Nat) (h : data.length ≤ f) :
    encode_go f data = encode data :=
  encode_go_fuel f data.length data h le_rfl

lemma rle2_decode_fuel (f : Nat) (data : List Symbol) (h : data.length ≤ f) :
    decode_go f data = decode data :=
  decode_go_fuel_syms f data.length data h le_rfl

lemma encode_go_nil (f : Nat) : encode_go f [] = [] := by
  cases f <;> rfl

lemma decode_go_nil (f : Nat) : decode_go f [] = [] := by
  cases f <;> rfl

lemma encode_cons_nonzero (b : Nat) (rest : List Nat) (hb : b ≠ 0) :
    encode (b :: rest) = Symbol.Byte b :: encode rest := by
  rw [encode, encode]
  simp only [List.length_cons]
  rw [encode_go, if_neg (by simp)]
  dsimp only
  rw [get_symbols, if_pos hb]
  rfl

lemma encode_zeros_then (j d : Nat) (t : List Nat) (hd : d ≠ 0) :
    encode (List.replicate (j + 1) 0 ++ d :: t) =
      encode_run (j + 1) ++ encode (d :: t) := by
  have hget : get_symbols (List.replicate (j + 1) 0 ++ d :: t) =
      (encode_run (j + 1), d :: t) := by
    rw [show List.replicate (j + 1) (0 : Nat) ++ d :: t =
        0 :: (List.replicate j 0 ++ d :: t) from by
      rw [List.replicate_succ, List.cons_append]]
    rw [get_symbols, if_neg (by simp)]
    rw [show (0 : Nat) :: (List.replicate j 0 ++ d :: t) =
        List.replicate (j + 1) 0 ++ d :: t from by
      rw [List.replicate_succ, List.cons_append]]
    rw [findIdx?_zeros (j + 1) d t hd]
    dsimp only
    congr 1
    have hdl := List.drop_left (List.replicate (j + 1) (0 : Nat)) (d :: t)
    rwa [List.length_replicate] at hdl
  have hlen : (List.replicate (j + 1) (0 : Nat) ++ d :: t).length =
      (j + 1 + t.length) + 1 := by
    simp
    omega
  rw [encode, hlen, encode_go, if_neg (by simp)]
  dsimp only
  rw [hget]
  dsimp only
  congr 1
  exact rle2_encode_fuel _ _ (by simp only [List.length_cons]; omega)

lemma encode_all_zeros (j : Nat) :
    encode (List.replicate (j + 1) 0) = encode_run (j + 1) := by
  have hget : get_symbols (List.replicate (j + 1) 0) = (encode_run (j + 1), []) := by
    rw [show List.replicate (j + 1) (0 : Nat) = 0 :: List.replicate j 0 from
      List.replicate_succ 0 j]
    rw [get_symbols, if_neg (by simp)]
    rw [show (0 : Nat) :: List.replicate j 0 = List.replicate (j + 1) 0 from
      (List.replicate_succ 0 j).symm]
    rw [findIdx?_zeros_none _ (fun b hb => (List.mem_replicate.mp hb).2)]
    dsimp only
    rw [List.length_replicate]
  rw [encode, List.length_replicate, encode_go, if_neg (by simp)]
  dsimp only
  rw [hget]
  dsimp only
  rw [encode_go_nil, List.append_nil]

lemma decode_cons_byte (b : Nat) (rest : List Symbol) :
    decode (Symbol.Byte b :: rest) = b :: decode rest := by
  rw [decode, decode]
  simp only [List.length_cons]
  rw [decode_go, if_neg (by simp)]
  dsimp only
  rw [get_bytes]
  rfl

lemma get_bytes_block_then (ns : List Symbol) (hne : ns ≠ [])
    (hnb : ∀ s ∈ ns, (match s with | Symbol.Byte _ => true | _ => false) = false)
    (b : Nat) (t : List Symbol) :
    get_bytes (ns ++ Symbol.Byte b :: t) = (decode_run ns, Symbol.Byte b :: t) := by
  cases ns with
  | nil => exact absurd rfl hne
  | cons s ns' =>
    have htail : (ns' ++ Symbol.Byte b :: t).findIdx?
        (fun s => match s with | Symbol.Byte _ => true | _ => false) = some ns'.length :=
      findIdx?_nonbytes ns' (fun x hx => hnb x (by simp [hx])) b t
    rw [List.cons_append]
    rcases s with _ | _ | v
    · simp only [get_bytes, List.findIdx?_cons, List.findIdx?_start_succ, htail,
        Option.map_some', Bool.false_eq_true, if_false]
      rw [show ns'.length + (0 + 1) = ns'.length + 1 from rfl]
      rw [List.take_succ_cons, List.drop_succ_cons, List.take_left, List.drop_left]
    · simp only [get_bytes, List.findIdx?_cons, List.findIdx?_start_succ, htail,
        Option.map_some', Bool.false_eq_true, if_false]
      rw [show ns'.length + (0 + 1) = ns'.length + 1 from rfl]
      rw [List.take_succ_cons, List.drop_succ_cons, List.take_left, List.drop_left]
    · have := hnb (Symbol.Byte v) (by simp)
      simp at this

lemma get_bytes_block_all (ns : List Symbol) (hne : ns ≠ [])
    (hnb : ∀ s ∈ ns, (match s with | Symbol.Byte _ => true | _ => false) = false) :
    get_bytes ns = (decode_run ns, []) := by
  cases ns with
  | nil => exact absurd rfl hne
  | cons s ns' =>
    have htail : ns'.findIdx?
        (fun s => match s with | Symbol.Byte _ => true | _ => false) = none :=
      findIdx?_nonbytes_none ns' (fun x hx => hnb x (by simp [hx]))
    rcases s with _ | _ | v
    · simp only [get_bytes, List.findIdx?_cons, List.findIdx?_start_succ, htail,
        Option.map_none', Bool.false_eq_true, if_false]
    · simp only [get_bytes, List.findIdx?_cons, List.findIdx?_start_succ, htail,
        Option.map_none', Bool.false_eq_true, if_false]
    · have := hnb (Symbol.Byte v) (by simp)
      simp at this

lemma decode_block_then (ns : List Symbol) (hne : ns ≠ [])
    (hnb : ∀ s ∈ ns, (match s with | Symbol.Byte _ => true | _ => false) = false)
    (b : Nat) (t : List Symbol) :
    decode (ns ++ Symbol.Byte b :: t) = decode_run ns ++ decode (Symbol.Byte b :: t) := by
  have hg := get_bytes_block_then ns hne hnb b t
  have hlen : (ns ++ Symbol.Byte b :: t).length = (ns.length + t.length) + 1 := by
    simp
    omega
  rw [decode, hlen, decode_go, if_neg (by
    simp only [List.isEmpty_eq_true, List.append_eq_nil]
    rintro ⟨h1, -⟩
    exact hne h1)]
  dsimp only
  rw [hg]
  dsimp only
  congr 1
  have hnlen : 1 ≤ ns.length := by
    cases ns
    · exact absurd rfl hne
    · simp
  exact rle2_decode_fuel _ _ (by simp only [List.length_cons]; omega)

lemma decode_block_all (ns : List Symbol) (hne : ns ≠ [])
    (hnb : ∀ s ∈ ns, (match s with | Symbol.Byte _ => true | _ => false) = false) :
    decode ns = decode_run ns := by
  have hg := get_bytes_block_all ns hne hnb
  obtain ⟨s, ns', rfl⟩ : ∃ s ns', ns = s :: ns' := by
    cases ns
    · exact absurd rfl hne
    · exact ⟨_, _, rfl⟩
  rw [decode]
  simp only [List.length_cons]
  rw [decode_go, if_neg (by simp)]
  dsimp only
  rw [hg]
  dsimp only
  rw [decode_go_nil, List.append_nil]

lemma decode_encode_aux : ∀ (n : Nat) (x : List Nat), x.length ≤ n →
    decode (encode x) = x := by
  intro n
  induction n with
  | zero =>
    intro x h
    have : x = [] := List.length_eq_zero.mp (by omega)
    subst this
    rfl
  | succ n ih =>
    intro x h
    cases x with
    | nil => rfl
    | cons b rest =>
      by_cases hb : b = 0
      · subst hb
        set rl := Rle1.runLength 0 rest with hrl
        have hrlen := Rle1.runLength_le_length 0 rest
        have htake : (0 :: rest).take (rl + 1) = List.replicate (rl + 1) 0 :=
          Rle1.take_min_runLength 0 rest (rl + 1) (by omega)
        have hxdec : (0 :: rest) = List.replicate (rl + 1) 0 ++ rest.drop rl := by
          conv_lhs => rw [← List.take_append_drop (rl + 1) (0 :: rest)]
          rw [htake, List.drop_succ_cons]
        rcases hx2 : rest.drop rl with _ | ⟨d, t⟩
        · have hlenx : rest.length ≤ rl := by
            have hlen0 := congrArg List.length hx2
            rw [List.length_drop] at hlen0
            simp only [List.length_nil] at hlen0
            omega
          rw [hxdec, hx2, List.append_nil, encode_all_zeros]
          rw [decode_block_all (encode_run (rl + 1)) (encode_run_ne_nil _ (by omega))
            (encode_run_not_byte (rl + 1))]
          exact decode_run_encode_run (rl + 1) (by omega)
        · have hdlt : rl < rest.length := by
            have hlen0 := congrArg List.length hx2
            rw [List.length_drop] at hlen0
            simp only [List.length_cons] at hlen0
            omega
          have hd : d ≠ 0 := by
            have hg := Rle1.getD_runLength_ne 0 rest hdlt
            have hzero : (rest.drop rl).getD 0 0 = rest.getD rl 0 := by
              rw [List.getD_eq_getElem?_getD, List.getD_eq_getElem?_getD,
                List.getElem?_drop]
              congr 2
            rw [hx2] at hzero
            simp only [List.getD_cons_zero] at hzero
            rw [hzero]
            exact hg
          rw [hxdec, hx2, encode_zeros_then rl d t hd, encode_cons_nonzero d t hd]
          rw [decode_block_then (encode_run (rl + 1)) (encode_run_ne_nil _ (by omega))
            (encode_run_not_byte (rl + 1)) d (encode t)]
          rw [decode_cons_byte]
          have hiht : decode (encode t) = t := ih t (by
            have hlen0 := congrArg List.length hx2
            rw [List.length_drop] at hlen0
            simp only [List.length_cons] at hlen0 h
            omega)
          rw [hiht, decode_run_encode_run (rl + 1) (by omega)]
      · rw [encode_cons_nonzero b rest hb, decode_cons_byte]
        rw [ih rest (by simp only [List.length_cons] at h; omega)]

/-- The rle2 stage round-trips on every byte buffer. -/
lemma rle2_roundtrip_lemma (x : List Nat) : decode (encode x) = x :=
  decode_encode_aux x.length x le_rfl

lemma block_split (s : Symbol) (xs' : List Symbol)
    (hs : (match s with | Symbol.Byte _ => true | _ => false) = false) :
    (∀ x ∈ s :: xs', (match x with | Symbol.Byte _ => true | _ => false) = false) ∨
    ∃ ns b t, s :: xs' = ns ++ Symbol.Byte b :: t ∧ ns ≠ [] ∧
      (∀ x ∈ ns, (match x with | Symbol.Byte _ => true | _ => false) = false) := by
  rcases hfind : (s :: xs').findIdx?
      (fun s => match s with | Symbol.Byte _ => true | _ => false) with _ | j
  · left
    intro x hx
    have := List.findIdx?_eq_none_iff.mp hfind x hx
    simpa using this
  · right
    obtain ⟨hlt, hp, hprev⟩ := List.findIdx?_eq_some_iff_getElem.mp hfind
    have hj1 : 1 ≤ j := by
      by_contra hc
      have hj0 : j = 0 := by omega
      subst hj0
      simp only [List.getElem_cons_zero] at hp
      rw [hs] at hp
      cases hp
    rcases hBb : (s :: xs')[j] with _ | _ | v
    · rw [hBb] at hp
      cases hp
    · rw [hBb] at hp
      cases hp
    · refine ⟨(s :: xs').take j, v, (s :: xs').drop (j + 1), ?_, ?_, ?_⟩
      · conv_lhs => rw [← List.take_append_drop j (s :: xs')]
        congr 1
        rw [← hBb]
        exact (List.getElem_cons_drop (s :: xs') j hlt).symm
      · intro hc
        have hlen0 := congrArg List.length hc
        rw [List.length_take] at hlen0
        simp only [List.length_nil, List.length_cons] at hlen0
        simp only [List.length_cons] at hlt
        omega
      · intro x hx
        obtain ⟨i, hi, rfl⟩ := List.mem_iff_getElem.mp hx
        rw [List.getElem_take]
        have hij : i < j := by
          rw [List.length_take] at hi
          omega
        have := hprev i hij
        simpa using this

lemma decode_byte_split_aux : ∀ (n : Nat) (xs : List Symbol), xs.length ≤ n →
    ∀ ys, decode (xs ++ Symbol.Byte 0 :: ys) = decode xs ++ 0 :: decode ys := by
  intro n
  induction n with
  | zero =>
    intro xs h ys
    have : xs = [] := List.length_eq_zero.mp (by omega)
    subst this
    simp only [List.nil_append]
    rw [decode_cons_byte]
    rfl
  | succ n ih =>
    intro xs h ys
    cases xs with
    | nil =>
      simp only [List.nil_append]
      rw [decode_cons_byte]
      rfl
    | cons s xs' =>
      rcases s with _ | _ | v
      case Byte =>
        rw [List.cons_append, decode_cons_byte, decode_cons_byte,
          ih xs' (by simp only [List.length_cons] at h; omega) ys, List.cons_append]
      all_goals {
        first
        | (rcases block_split Symbol.RunA xs' rfl with hall | ⟨ns, b, t, heq, hne, hnb⟩
           · rw [decode_block_then (Symbol.RunA :: xs') (by simp) hall 0 ys,
               decode_block_all (Symbol.RunA :: xs') (by simp) hall, decode_cons_byte]
           · rw [heq, show (ns ++ Symbol.Byte b :: t) ++ Symbol.Byte 0 :: ys =
                 ns ++ Symbol.Byte b :: (t ++ Symbol.Byte 0 :: ys) from by simp,
               decode_block_then ns hne hnb b (t ++ Symbol.Byte 0 :: ys),
               decode_block_then ns hne hnb b t, decode_cons_byte, decode_cons_byte]
             have hnsl : 1 ≤ ns.length := by
               cases ns
               · exact absurd rfl hne
               · simp
             have hlent : t.length ≤ n := by
               have hlen0 := congrArg List.length heq
               simp only [List.length_cons, List.length_append] at hlen0 h
               omega
             rw [ih t hlent ys]
             simp)
        | (rcases block_split Symbol.RunB xs' rfl with hall | ⟨ns, b, t, heq, hne, hnb⟩
           · rw [decode_block_then (Symbol.RunB :: xs') (by simp) hall 0 ys,
               decode_block_all (Symbol.RunB :: xs') (by simp) hall, decode_cons_byte]
           · rw [heq, show (ns ++ Symbol.Byte b :: t) ++ Symbol.Byte 0 :: ys =
                 ns ++ Symbol.Byte b :: (t ++ Symbol.Byte 0 :: ys) from by simp,
               decode_block_then ns hne hnb b (t ++ Symbol.Byte 0 :: ys),
               decode_block_then ns hne hnb b t, decode_cons_byte, decode_cons_byte]
             have hnsl : 1 ≤ ns.length := by
               cases ns
               · exact absurd rfl hne
               · simp
             have hlent : t.length ≤ n := by
               have hlen0 := congrArg List.length heq
               simp only [List.length_cons, List.length_append] at hlen0 h
               omega
             rw [ih t hlent ys]
             simp)
      }

/-- A literal `Byte 0` symbol anywhere in the input decodes to exactly one
zero byte and never merges into a zero-run marker. -/
lemma decode_byte_zero_split (xs ys : List Symbol) :
    decode (xs ++ Symbol.Byte 0 :: ys) = decode xs ++ 0 :: decode ys :=
  decode_byte_split_aux xs.length xs le_rfl ys

end Rle2

/-! Claim theorems. -/

/-- Claim C2: for every finite byte buffer `x`, the first run-length stage
round-trips: `rle1::decode(rle1::encode(x))` succeeds and returns exactly
`x`. -/
theorem rle1_roundtrip (x : List Nat) : Rle1.decode (Rle1.encode x) = some x := by
  rw [Rle1.encode_eq_runsEncode]
  exact Rle1.decode_runsEncode x

/-- Claim C3: for every finite byte buffer `x`, the zero-run stage
round-trips: `rle2::decode(rle2::encode(x)) = x` (the alphabet is bytes, so
every zero run the encoder produces is well-formed). -/
theorem rle2_roundtrip (x : List Nat) : Rle2.decode (Rle2.encode x) = x :=
  Rle2.rle2_roundtrip_lemma x

/-- Claim C4, counterexample: a run of 259 identical bytes is NOT the longest
single-run encoding.  The encoder flushes a run at 255 bytes of raw length,
so 259 bytes of value 101 encode as two units `101 101 101 101 251` and
`101 101 101 101 0`, never as `101 101 101 101 255`. -/
theorem rle1_boundary_counterexample :
    Rle1.encode (List.replicate 259 101) =
      (List.replicate 4 101 ++ [251]) ++ (List.replicate 4 101 ++ [0]) ∧
    Rle1.encode (List.replicate 259 101) ≠ List.replicate 4 101 ++ [255] := by
  have h : Rle1.encode (List.replicate 259 101) =
      (List.replicate 4 101 ++ [251]) ++ (List.replicate 4 101 ++ [0]) := by
    rw [Rle1.encode_eq_runsEncode,
      Rle1.runsEncode_double 101 259 (by omega) (by omega),
      Rle1.encode_run_big 101 255 (by omega) (by omega),
      Rle1.encode_run_big 101 4 (by omega) (by omega)]
  refine ⟨h, ?_⟩
  rw [h]
  decide

/-- Claim C4 (amended): a run of exactly 4 identical bytes encodes to 5 bytes
(4 literals plus length byte 0) and a run of exactly 3 as 3 literal bytes; the
encoder flushes a run at 255 bytes of raw input, so a run of 255 is the
longest single-run encoding (4 literals plus length byte 251), a run of 259
splits into a 255-byte encoded run followed by a 4-byte encoded run, and a run
of 260 into a 255-byte run followed by a 5-byte run. -/
theorem rle1_boundary (c : Nat) :
    Rle1.encode (List.replicate 4 c) = List.replicate 4 c ++ [0] ∧
    Rle1.encode (List.replicate 3 c) = List.replicate 3 c ∧
    Rle1.encode (List.replicate 255 c) = List.replicate 4 c ++ [251] ∧
    Rle1.encode (List.replicate 259 c) =
      (List.replicate 4 c ++ [251]) ++ (List.replicate 4 c ++ [0]) ∧
    Rle1.encode (List.replicate 260 c) =
      (List.replicate 4 c ++ [251]) ++ (List.replicate 4 c ++ [1]) := by
  refine ⟨?_, ?_, ?_, ?_, ?_⟩
  · rw [Rle1.encode_eq_runsEncode, Rle1.runsEncode_single c 4 (by omega) (by omega),
      Rle1.encode_run_big c 4 (by omega) (by omega)]
  · rw [Rle1.encode_eq_runsEncode, Rle1.runsEncode_single c 3 (by omega) (by omega),
      Rle1.encode_run_small c 3 (by omega)]
  · rw [Rle1.encode_eq_runsEncode, Rle1.runsEncode_single c 255 (by omega) (by omega),
      Rle1.encode_run_big c 255 (by omega) (by omega)]
  · rw [Rle1.encode_eq_runsEncode, Rle1.runsEncode_double c 259 (by omega) (by omega),
      Rle1.encode_run_big c 255 (by omega) (by omega),
      Rle1.encode_run_big c 4 (by omega) (by omega)]
  · rw [Rle1.encode_eq_runsEncode, Rle1.runsEncode_double c 260 (by omega) (by omega),
      Rle1.encode_run_big c 255 (by omega) (by omega),
      Rle1.encode_run_big c 5 (by omega) (by omega)]

/-- Claim C5, counterexample: `encode_run` applied to a zero run of length 15
yields `[RunA, RunA, RunA, RunA]` (since 15 + 1 = 16 = 2 ^ 4 has no stripped
bits), not `[RunB, RunA, RunA, RunA]`; and `[RunB, RunA, RunA, RunA]` decodes
to 16 zero bytes, not 15. -/
theorem rle2_run15_counterexample :
    Rle2.encode_run 15 =
      [Rle2.Symbol.RunA, Rle2.Symbol.RunA, Rle2.Symbol.RunA, Rle2.Symbol.RunA] ∧
    Rle2.encode_run 15 ≠
      [Rle2.Symbol.RunB, Rle2.Symbol.RunA, Rle2.Symbol.RunA, Rle2.Symbol.RunA] ∧
    Rle2.decode_run
      [Rle2.Symbol.RunB, Rle2.Symbol.RunA, Rle2.Symbol.RunA, Rle2.Symbol.RunA] =
      List.replicate 16 0 := by
  have h15 : Rle2.encode_run 15 =
      [Rle2.Symbol.RunA, Rle2.Symbol.RunA, Rle2.Symbol.RunA, Rle2.Symbol.RunA] := by
    rw [Rle2.encode_run, show (15 + 1 : Nat) = 16 by norm_num, Rle2.log2_16]
    decide
  refine ⟨h15, by rw [h15]; decide, by decide⟩

/-- Claim C5 (amended): `encode_run` applied to a zero run of length 16 yields
`[RunB, RunA, RunA, RunA]`, and `decode_run` applied to that sequence yields
exactly 16 zero bytes; length 15 yields `[RunA, RunA, RunA, RunA]`, decoding
to 15 zero bytes. -/
theorem rle2_run16 :
    Rle2.encode_run 16 =
      [Rle2.Symbol.RunB, Rle2.Symbol.RunA, Rle2.Symbol.RunA, Rle2.Symbol.RunA] ∧
    Rle2.decode_run
      [Rle2.Symbol.RunB, Rle2.Symbol.RunA, Rle2.Symbol.RunA, Rle2.Symbol.RunA] =
      List.replicate 16 0 ∧
    Rle2.encode_run 15 =
      [Rle2.Symbol.RunA, Rle2.Symbol.RunA, Rle2.Symbol.RunA, Rle2.Symbol.RunA] ∧
    Rle2.decode_run
      [Rle2.Symbol.RunA, Rle2.Symbol.RunA, Rle2.Symbol.RunA, Rle2.Symbol.RunA] =
      List.replicate 15 0 := by
  have h16 : Rle2.encode_run 16 =
      [Rle2.Symbol.RunB, Rle2.Symbol.RunA, Rle2.Symbol.RunA, Rle2.Symbol.RunA] := by
    rw [Rle2.encode_run, show (16 + 1 : Nat) = 17 by norm_num, Rle2.log2_17]
    decide
  have h15 : Rle2.encode_run 15 =
      [Rle2.Symbol.RunA, Rle2.Symbol.RunA, Rle2.Symbol.RunA, Rle2.Symbol.RunA] := by
    rw [Rle2.encode_run, show (15 + 1 : Nat) = 16 by norm_num, Rle2.log2_16]
    decide
  refine ⟨h16, by decide, h15, by decide⟩

/-- Claim C6: for every run length `L ≥ 1`, `decode_run (encode_run L)` yields
exactly `L` zero bytes, under the bijective base-2 numeral law encoded in the
definitions (`zero_count + 1 = (1 <<< num_symbols) ||| bits`, emitted least
significant bit first and read back reversed); in particular
`encode_run 1 = [RunA]`. -/
theorem rle2_numeral_law :
    (∀ L : Nat, 1 ≤ L → Rle2.decode_run (Rle2.encode_run L) = List.replicate L 0) ∧
    Rle2.encode_run 1 = [Rle2.Symbol.RunA] := by
  refine ⟨fun L hL => Rle2.decode_run_encode_run L hL, ?_⟩
  rw [Rle2.encode_run, show (1 + 1 : Nat) = 2 by norm_num, Rle2.log2_2]
  decide

/-- Witness for C6 at `L = 7`. -/
theorem rle2_numeral_law_witness :
    1 ≤ 7 ∧ Rle2.decode_run (Rle2.encode_run 7) = List.replicate 7 0 :=
  ⟨by decide, rle2_numeral_law.1 7 (by decide)⟩

/-- Claim C7: the rle1 decoder fails (and the only error is the truncation
error, the sole constructor of its error type, modelled as `none`) exactly
when the parse reaches a state where the remaining input is a run of exactly
4 identical bytes with no following length byte; in particular decoding
`"abbcccc"` fails, while decoding `"abbccc"` succeeds and returns the input
unchanged. -/
theorem rle1_truncation :
    (∀ data : List Nat, Rle1.decode data = none ↔
      ∃ s, Rle1.Reach data s ∧ s.length = 4 ∧ ∀ b ∈ s, b = s.headD 0) ∧
    Rle1.decode [97, 98, 98, 99, 99, 99, 99] = none ∧
    Rle1.decode [97, 98, 98, 99, 99, 99] = some [97, 98, 98, 99, 99, 99] := by
  refine ⟨Rle1.decode_none_iff, by decide, by decide⟩

/-- Claim C8: the rle1 encoder scan is exactly encoding by maximal runs capped
at 255 bytes of raw length (`cappedRuns`), every emitted run has a length
between 1 and 255, and on close a run of length at most 3 is emitted
literally while a run of length at least 4 is emitted as 4 literals plus one
length byte equal to length minus 4. -/
theorem rle1_encode_by_runs :
    (∀ data : List Nat, Rle1.encode data =
      ((Rle1.cappedRuns data).map
        (fun r => Rle1.encode_run (List.replicate r.2 r.1))).flatten) ∧
    (∀ data : List Nat, ∀ r ∈ Rle1.cappedRuns data, 1 ≤ r.2 ∧ r.2 ≤ 255) ∧
    (∀ c n : Nat, 1 ≤ n → n ≤ 3 →
      Rle1.encode_run (List.replicate n c) = List.replicate n c) ∧
    (∀ c n : Nat, 4 ≤ n → n ≤ 255 →
      Rle1.encode_run (List.replicate n c) = List.replicate 4 c ++ [n - 4]) := by
  refine ⟨?_, ?_, ?_, ?_⟩
  · intro data
    rw [Rle1.encode_eq_runsEncode, Rle1.runsEncode]
  · intro data r hr
    exact Rle1.cappedRuns_bounds_aux data.length data le_rfl r hr
  · intro c n _ h3
    exact Rle1.encode_run_small c n h3
  · intro c n h4 h255
    exact Rle1.encode_run_big c n h4 h255

/-- Witness for C8 at a run of 7 bytes of value 33. -/
theorem rle1_encode_by_runs_witness :
    4 ≤ 7 ∧ 7 ≤ 255 ∧
      Rle1.encode_run (List.replicate 7 33) = List.replicate 4 33 ++ [3] :=
  ⟨by decide, by decide, rle1_encode_by_runs.2.2.2 33 7 (by decide) (by decide)⟩

/-- Claim C9: a `Byte 0` symbol presented to the rle2 decoder is always
decoded as exactly one literal zero byte and never treated as part of a
zero-run marker: `get_bytes` returns it as a single literal, and at the
whole-stream level every occurrence contributes exactly one zero. -/
theorem rle2_byte_zero_literal :
    (∀ rest : List Rle2.Symbol,
      Rle2.get_bytes (Rle2.Symbol.Byte 0 :: rest) = ([0], rest)) ∧
    ∀ xs ys : List Rle2.Symbol,
      Rle2.decode (xs ++ Rle2.Symbol.Byte 0 :: ys) =
        Rle2.decode xs ++ 0 :: Rle2.decode ys :=
  ⟨fun _ => rfl, Rle2.decode_byte_zero_split⟩

/-- Claim C10: on every nonempty input `get_run` returns either the
truncation error or a nonempty prefix of the input whose length is 1, 2, 3 or
5 (hence the debug assertion in `decode_run` cannot fail during `decode`),
and the decode loop terminates within `data.length` iterations: granting it
any extra fuel never changes the result, because every iteration consumes at
least one byte. -/
theorem rle1_get_run_shape (data : List Nat) (h : data ≠ []) :
    (Rle1.get_run data = none ∨
      ∃ run, Rle1.get_run data = some run ∧ run = data.take run.length ∧
        1 ≤ run.length ∧
        (run.length = 1 ∨ run.length = 2 ∨ run.length = 3 ∨ run.length = 5)) ∧
    ∀ k, Rle1.decode_go (data.length + k) data = Rle1.decode data := by
  constructor
  · rcases hg : Rle1.get_run data with _ | run
    · exact Or.inl rfl
    · obtain ⟨h1, h2, _, h4⟩ := Rle1.get_run_some_shape data h run hg
      exact Or.inr ⟨run, rfl, h1, h2, h4⟩
  · intro k
    exact Rle1.decode_go_fuel (data.length + k) data.length data (by omega) le_rfl

/-- Witness for C10 on the input `[5, 5]`. -/
theorem rle1_get_run_shape_witness :
    ([5, 5] : List Nat) ≠ [] ∧ Rle1.decode_go 7 [5, 5] = Rle1.decode [5, 5] := by
  refine ⟨by decide, ?_⟩
  have h := rle1_get_run_shape [5, 5] (by decide)
  exact h.2 5

end Beeziptoo
